import Mathlib

/-!
# Verification of the stock-signal core (src/src/main.rs)

A shallow embedding of the signal calculations and the per-symbol
orchestration loop of the Rust program.  `f64` values are modelled as
exact rationals `ℚ`; the fold seeds `f64::MIN` / `f64::MAX` become the
corresponding rational constants, and "finite f64" inputs are the
rationals lying between them.  `Option` models Rust's `Option` (the
spec's Absent marker is `none`), and quote retrieval (`fetch_closing_data`)
is an abstract parameter returning `Except Unit (List ℚ)` to model
`std::io::Result<Vec<f64>>`.
-/

set_option autoImplicit false

namespace Stock

/-- `f64::MAX = (2^53 - 1) * 2^971`, as an exact rational. -/
def f64MAX : ℚ := (2 ^ 53 - 1) * 2 ^ 971

/-- `f64::MIN = -f64::MAX`, as an exact rational. -/
def f64MIN : ℚ := -f64MAX

/-- Embedding of `price_diff` (src/src/main.rs:94-105): on a non-empty
series, the pair of the absolute difference `last - first` and the
relative difference `abs_diff / first`, the denominator replaced by `1.0`
when the first element is `0.0`; `None` on the empty series. -/
def price_diff (a : List ℚ) : Option (ℚ × ℚ) :=
  if a ≠ [] then
    let first := a.headI
    let last := a.getLastI
    let abs_diff := last - first
    let denom := if first = 0 then 1 else first
    let rel_diff := abs_diff / denom
    some (abs_diff, rel_diff)
  else
    none

/-- Embedding of Rust's `slice::windows(n)` (for `n > 0`): all contiguous
subslices of length `n`, in order; empty when `n` exceeds the length. -/
def windows (n : ℕ) (series : List ℚ) : List (List ℚ) :=
  (List.range (series.length + 1 - n)).map (fun i => (series.drop i).take n)

/-- Embedding of `n_window_sma` (src/src/main.rs:110-121): each window's
sum divided by its length, `None` when the series is empty or `n ≤ 1`. -/
def n_window_sma (n : ℕ) (series : List ℚ) : Option (List ℚ) :=
  if series ≠ [] ∧ 1 < n then
    some ((windows n series).map (fun w => w.sum / (w.length : ℚ)))
  else
    none

/-- Embedding of `max` (src/src/main.rs:126-132): a fold with seed
`f64::MIN`, `None` on the empty series. -/
def max (series : List ℚ) : Option ℚ :=
  if series = [] then
    none
  else
    some (series.foldl (fun acc q => Max.max acc q) f64MIN)

/-- Embedding of `min` (src/src/main.rs:137-143): a fold with seed
`f64::MAX`, `None` on the empty series. -/
def min (series : List ℚ) : Option ℚ :=
  if series = [] then
    none
  else
    some (series.foldl (fun acc q => Min.min acc q) f64MAX)

/-- One report row, holding the values printed by `main`
(src/src/main.rs:188-198): the percent-change field already carries the
`* 100.0` display scaling, and the moving-average field is the last SMA
value with `0.0` substituted. -/
structure Row where
  symbol : String
  lastPrice : ℚ
  pctChange : ℚ
  periodMin : ℚ
  periodMax : ℚ
  sma30Last : ℚ
  deriving Repr, DecidableEq

/-- The row-assembly in the body of `main`'s loop (src/src/main.rs:181-198),
reached only when `closes` is non-empty.  `unwrap()` on the min/max options
is `Option.iget`, `unwrap_or` / `unwrap_or_default` are `Option.getD`. -/
def makeRow (symbol : String) (closes : List ℚ) : Row :=
  let period_max := (max closes).iget
  let period_min := (min closes).iget
  let last_price := closes.getLast?.getD 0
  let pct_change := ((price_diff closes).getD (0, 0)).2
  let sma := (n_window_sma 30 closes).getD []
  { symbol := symbol
    lastPrice := last_price
    pctChange := pct_change * 100
    periodMin := period_min
    periodMax := period_max
    sma30Last := sma.getLast?.getD 0 }

/-- The symbol loop of `main` (src/src/main.rs:179-201): for each symbol,
fetch its closing series; a retrieval error aborts the run (the `?`
operator), emitting no further rows; a non-empty series contributes one
row, an empty one is skipped.  Returns the rows emitted, in order, and
whether the run aborted with an error. -/
def main (fetch : String → Except Unit (List ℚ)) : List String → List Row × Bool
  | [] => ([], false)
  | s :: rest =>
    match fetch s with
    | .error _ => ([], true)
    | .ok closes =>
      let (rows, err) := main fetch rest
      if closes ≠ [] then (makeRow s closes :: rows, err) else (rows, err)

end Stock

/-- **C5** For every series `S`, `price_diff S` is Absent (`none`) iff `S`
is empty. -/
theorem C5_price_diff_absent_iff_empty (S : List ℚ) :
    Stock.price_diff S = none ↔ S = [] := by
  unfold Stock.price_diff
  split <;> simp_all

/-- **C6** For every series `S` and window size `n`, `n_window_sma n S` is
Absent (`none`) iff `n ≤ 1` or `S` is empty; in particular it is Absent
for `n ≤ 1` regardless of `S`. -/
theorem C6_sma_absent_iff_degenerate (n : ℕ) (S : List ℚ) :
    Stock.n_window_sma n S = none ↔ n ≤ 1 ∨ S = [] := by
  unfold Stock.n_window_sma
  split <;> rename_i hcond
  · simp only [reduceCtorEq, false_iff]
    push_neg
    exact ⟨hcond.2, hcond.1⟩
  · simp only [true_iff]
    rcases not_and_or.mp hcond with h | h
    · right; exact not_not.mp h
    · left; omega

/-- **C1** For every window size `n > 1` and non-empty series `S`,
`n_window_sma n S` returns (not Absent) an ordered sequence of length
`max 0 (len S - n + 1)` (as naturals, `len S + 1 - n`) whose element `i`
is the arithmetic mean of the window `S[i .. i+n)`; when `n ≥ len S + 1`
that sequence is empty. -/
theorem C1_sma_windows (n : ℕ) (S : List ℚ) (hn : 1 < n) (hS : S ≠ []) :
    ∃ out, Stock.n_window_sma n S = some out ∧
      out.length = S.length + 1 - n ∧
      (∀ i, ∀ hi : i < out.length,
        ((S.drop i).take n).length = n ∧
        out.get ⟨i, hi⟩ = ((S.drop i).take n).sum / (n : ℚ)) ∧
      (S.length + 1 ≤ n → out = []) := by
  refine ⟨(Stock.windows n S).map (fun w => w.sum / (w.length : ℚ)), ?_, ?_, ?_, ?_⟩
  · unfold Stock.n_window_sma
    simp [hS, hn]
  · simp [Stock.windows]
  · intro i hi
    have hlen : i < S.length + 1 - n := by
      simpa [Stock.windows] using hi
    have hwl : ((S.drop i).take n).length = n := by
      simp only [List.length_take, List.length_drop]
      omega
    refine ⟨hwl, ?_⟩
    rw [List.get_eq_getElem]
    simp only [List.getElem_map, Stock.windows, List.getElem_range]
    rw [hwl]
  · intro hle
    have hzero : S.length + 1 - n = 0 := by omega
    simp [Stock.windows, hzero]

/-- **C1, witness**: the spec's example `WindowedSMA(10, [2.0,4.5,5.3,6.5,4.7])`
is the empty sequence (`some []`), not Absent. -/
theorem C1_sma_windows_witness :
    ∃ out, Stock.n_window_sma 10 [2, 45/10, 53/10, 65/10, 47/10] = some out ∧
      out.length = ([2, 45/10, 53/10, 65/10, (47:ℚ)/10].length + 1 - 10) ∧
      (∀ i, ∀ hi : i < out.length,
        (([2, 45/10, 53/10, 65/10, (47:ℚ)/10].drop i).take 10).length = 10 ∧
        out.get ⟨i, hi⟩ =
          (([2, 45/10, 53/10, 65/10, (47:ℚ)/10].drop i).take 10).sum / (10 : ℚ)) ∧
      ([2, 45/10, 53/10, 65/10, (47:ℚ)/10].length + 1 ≤ 10 → out = []) :=
  C1_sma_windows 10 [2, 45/10, 53/10, 65/10, 47/10] (by norm_num) (by simp)

/-- The seed of a left fold by `Max.max` never exceeds the result. -/
lemma le_foldl_max (l : List ℚ) :
    ∀ init : ℚ, init ≤ l.foldl (fun a b => Max.max a b) init := by
  induction l with
  | nil => intro init; simp
  | cons x xs ih =>
    intro init
    calc init ≤ Max.max init x := le_max_left _ _
    _ ≤ xs.foldl (fun a b => Max.max a b) (Max.max init x) := ih _

/-- Every member of the list is bounded by the `Max.max` fold. -/
lemma mem_le_foldl_max (l : List ℚ) :
    ∀ init : ℚ, ∀ e ∈ l, e ≤ l.foldl (fun a b => Max.max a b) init := by
  induction l with
  | nil => intro init e he; simp at he
  | cons x xs ih =>
    intro init e he
    rcases List.mem_cons.mp he with h | h
    · subst h
      calc e ≤ Max.max init e := le_max_right _ _
      _ ≤ xs.foldl (fun a b => Max.max a b) (Max.max init e) := le_foldl_max _ _
    · exact ih _ e h

/-- The `Max.max` fold is a member of the list or the untouched seed. -/
lemma foldl_max_mem_or_init (l : List ℚ) :
    ∀ init : ℚ, l.foldl (fun a b => Max.max a b) init ∈ l ∨
      l.foldl (fun a b => Max.max a b) init = init := by
  induction l with
  | nil => intro init; right; rfl
  | cons x xs ih =>
    intro init
    rw [List.foldl_cons]
    rcases ih (Max.max init x) with h | h
    · exact Or.inl (List.mem_cons_of_mem _ h)
    · rw [h]
      rcases max_choice init x with hc | hc
    <;> rw [hc]
      · exact Or.inr rfl
      · exact Or.inl (List.mem_cons_self _ _)

/-- The `Min.min` fold never exceeds the seed. -/
lemma foldl_min_le (l : List ℚ) :
    ∀ init : ℚ, l.foldl (fun a b => Min.min a b) init ≤ init := by
  induction l with
  | nil => intro init; simp
  | cons x xs ih =>
    intro init
    calc xs.foldl (fun a b => Min.min a b) (Min.min init x) ≤ Min.min init x := ih _
    _ ≤ init := min_le_left _ _

/-- The `Min.min` fold bounds every member of the list from below. -/
lemma foldl_min_le_mem (l : List ℚ) :
    ∀ init : ℚ, ∀ e ∈ l, l.foldl (fun a b => Min.min a b) init ≤ e := by
  induction l with
  | nil => intro init e he; simp at he
  | cons x xs ih =>
    intro init e he
    rcases List.mem_cons.mp he with h | h
    · subst h
      calc xs.foldl (fun a b => Min.min a b) (Min.min init e) ≤ Min.min init e :=
        foldl_min_le _ _
      _ ≤ e := min_le_right _ _
    · exact ih _ e h

/-- The `Min.min` fold is a member of the list or the untouched seed. -/
lemma foldl_min_mem_or_init (l : List ℚ) :
    ∀ init : ℚ, l.foldl (fun a b => Min.min a b) init ∈ l ∨
      l.foldl (fun a b => Min.min a b) init = init := by
  induction l with
  | nil => intro init; right; rfl
  | cons x xs ih =>
    intro init
    rw [List.foldl_cons]
    rcases ih (Min.min init x) with h | h
    · exact Or.inl (List.mem_cons_of_mem _ h)
    · rw [h]
      rcases min_choice init x with hc | hc
    <;> rw [hc]
      · exact Or.inr rfl
      · exact Or.inl (List.mem_cons_self _ _)

/-- **C2** `min` and `max` return the Absent marker (`none`) exactly on
the empty series; on a non-empty series of (finite-`f64`-range) values
they return (not Absent) the true minimum and maximum: members of the
series bounding every element, so every element lies in `[min, max]`. -/
theorem C2_min_max_extrema (S : List ℚ)
    (hrange : ∀ e ∈ S, Stock.f64MIN ≤ e ∧ e ≤ Stock.f64MAX) :
    (S = [] → Stock.min S = none ∧ Stock.max S = none) ∧
    (S ≠ [] → ∃ m M, Stock.min S = some m ∧ Stock.max S = some M ∧
      m ∈ S ∧ M ∈ S ∧ ∀ e ∈ S, m ≤ e ∧ e ≤ M) := by
  constructor
  · intro hS
    subst hS
    constructor
    · unfold Stock.min
      simp
    · unfold Stock.max
      simp
  intro hne
  obtain ⟨e₀, he₀⟩ := List.exists_mem_of_ne_nil S hne
  refine ⟨S.foldl (fun a b => Min.min a b) Stock.f64MAX,
    S.foldl (fun a b => Max.max a b) Stock.f64MIN, ?_, ?_, ?_, ?_, ?_⟩
  · unfold Stock.min
    simp [hne]
  · unfold Stock.max
    simp [hne]
  · rcases foldl_min_mem_or_init S Stock.f64MAX with h | h
    · exact h
    · have h1 : S.foldl (fun a b => Min.min a b) Stock.f64MAX ≤ e₀ :=
        foldl_min_le_mem S Stock.f64MAX e₀ he₀
      have h2 : e₀ ≤ S.foldl (fun a b => Min.min a b) Stock.f64MAX := by
        rw [h]; exact (hrange e₀ he₀).2
      have : S.foldl (fun a b => Min.min a b) Stock.f64MAX = e₀ := le_antisymm h1 h2
      rw [this]; exact he₀
  · rcases foldl_max_mem_or_init S Stock.f64MIN with h | h
    · exact h
    · have h1 : e₀ ≤ S.foldl (fun a b => Max.max a b) Stock.f64MIN :=
        mem_le_foldl_max S Stock.f64MIN e₀ he₀
      have h2 : S.foldl (fun a b => Max.max a b) Stock.f64MIN ≤ e₀ := by
        rw [h]; exact (hrange e₀ he₀).1
      have : S.foldl (fun a b => Max.max a b) Stock.f64MIN = e₀ := le_antisymm h2 h1
      rw [this]; exact he₀
  · intro e he
    exact ⟨foldl_min_le_mem S Stock.f64MAX e he, mem_le_foldl_max S Stock.f64MIN e he⟩

/-- **C2, witness**: the spec's end-to-end example series `[2,3,5,6,1,2,10]`
has `min = 1` and `max = 10`, and the theorem applies to it. -/
theorem C2_min_max_extrema_witness :
    (([2, 3, 5, 6, 1, 2, (10:ℚ)] = ([] : List ℚ) →
        Stock.min [2, 3, 5, 6, 1, 2, 10] = none ∧
        Stock.max [2, 3, 5, 6, 1, 2, 10] = none) ∧
      ([2, 3, 5, 6, 1, 2, (10:ℚ)] ≠ [] →
        ∃ m M, Stock.min [2, 3, 5, 6, 1, 2, 10] = some m ∧
          Stock.max [2, 3, 5, 6, 1, 2, 10] = some M ∧
          m ∈ [2, 3, 5, 6, 1, 2, (10:ℚ)] ∧ M ∈ [2, 3, 5, 6, 1, 2, (10:ℚ)] ∧
          ∀ e ∈ [2, 3, 5, 6, 1, 2, (10:ℚ)], m ≤ e ∧ e ≤ M)) ∧
    Stock.min [2, 3, 5, 6, 1, 2, 10] = some 1 ∧
    Stock.max [2, 3, 5, 6, 1, 2, 10] = some 10 := by
  refine ⟨C2_min_max_extrema [2, 3, 5, 6, 1, 2, 10] ?_, ?_, ?_⟩
  · intro e he
    fin_cases he <;> constructor <;>
      norm_num [Stock.f64MIN, Stock.f64MAX]
  · unfold Stock.min
    rw [if_neg (by simp)]
    norm_num [List.foldl_cons, List.foldl_nil, min_def, Stock.f64MAX]
  · unfold Stock.max
    rw [if_neg (by simp)]
    norm_num [List.foldl_cons, List.foldl_nil, max_def, Stock.f64MIN, Stock.f64MAX]

/-- **C3** For every non-empty series, `price_diff` returns the pair
`(last - first, (last - first) / denom)` with `denom = first` unless the
first element is `0`, in which case `denom = 1`. -/
theorem C3_price_diff_formula (S : List ℚ) (h : S ≠ []) :
    Stock.price_diff S =
      some (S.getLastI - S.headI,
        (S.getLastI - S.headI) / (if S.headI = 0 then 1 else S.headI)) := by
  unfold Stock.price_diff
  simp [h]

/-- **C3, witness**: the spec's example
`PriceDifference([0,3,5,6,1,2,1]) = (1, 1)`. -/
theorem C3_price_diff_formula_witness :
    Stock.price_diff [0, 3, 5, 6, 1, 2, 1] = some (1, 1) := by
  rw [C3_price_diff_formula [0, 3, 5, 6, 1, 2, 1] (by simp)]
  norm_num [List.headI, List.getLastI]

/-- **C7** For every single-element series `[x]`, `price_diff [x] = (0, 0)`. -/
theorem C7_price_diff_singleton (x : ℚ) :
    Stock.price_diff [x] = some (0, 0) := by
  unfold Stock.price_diff
  simp [List.headI, List.getLastI]

/-- **C4** When retrieval succeeds for every symbol, the orchestrator loop
emits exactly the rows of the symbols with a non-empty series, in request
order, with no row (nor error) for the symbols whose series is empty. -/
theorem C4_orchestrator_rows (data : String → List ℚ) (symbols : List String) :
    Stock.main (fun s => Except.ok (data s)) symbols =
      ((symbols.filter (fun s => !(data s).isEmpty)).map
          (fun s => Stock.makeRow s (data s)),
        false) := by
  induction symbols with
  | nil => rfl
  | cons s rest ih =>
    simp only [Stock.main, ih, List.filter_cons]
    by_cases h : data s = []
    · simp [h]
    · simp [h]

/-- **C10** For the orchestrator's window size 30 and every non-empty
series, the SMA is never Absent, so `unwrap_or_default` returns the SMA
sequence itself: only an empty sequence can make the later `0.0` default
fire. -/
theorem C10_sma30_never_absent (closes : List ℚ) (h : closes ≠ []) :
    ∃ v, Stock.n_window_sma 30 closes = some v ∧
      (Stock.n_window_sma 30 closes).getD [] = v := by
  refine ⟨(Stock.windows 30 closes).map (fun w => w.sum / (w.length : ℚ)), ?_, ?_⟩ <;>
  · unfold Stock.n_window_sma
    simp [h]

/-- **C10, witness**: the single-element series `[1]` has a `some` SMA. -/
theorem C10_sma30_never_absent_witness :
    ∃ v, Stock.n_window_sma 30 [(1 : ℚ)] = some v ∧
      (Stock.n_window_sma 30 [(1 : ℚ)]).getD [] = v :=
  C10_sma30_never_absent [1] (by simp)

/-- **C8** For a non-empty series, the assembled row carries: the last raw
series element as the price; the relative component of `price_diff`
scaled by `100` as the percent change; the `min` and `max` results; and
the last element of the (never Absent) 30-window SMA sequence, with `0`
substituted when that sequence is empty. -/
theorem C8_row_assembly (s : String) (closes : List ℚ) (h : closes ≠ []) :
    (Stock.makeRow s closes).lastPrice = closes.getLast h ∧
    (∃ p, Stock.price_diff closes = some p ∧
      (Stock.makeRow s closes).pctChange = p.2 * 100) ∧
    (∃ m, Stock.min closes = some m ∧ (Stock.makeRow s closes).periodMin = m) ∧
    (∃ M, Stock.max closes = some M ∧ (Stock.makeRow s closes).periodMax = M) ∧
    (∃ sma, Stock.n_window_sma 30 closes = some sma ∧
      (Stock.makeRow s closes).sma30Last = sma.getLast?.getD 0) := by
  have hpd : Stock.price_diff closes =
      some (closes.getLastI - closes.headI,
        (closes.getLastI - closes.headI) /
          (if closes.headI = 0 then 1 else closes.headI)) := by
    unfold Stock.price_diff
    simp [h]
  have hm : Stock.min closes =
      some (closes.foldl (fun acc q => Min.min acc q) Stock.f64MAX) := by
    unfold Stock.min
    simp [h]
  have hM : Stock.max closes =
      some (closes.foldl (fun acc q => Max.max acc q) Stock.f64MIN) := by
    unfold Stock.max
    simp [h]
  have hsma : Stock.n_window_sma 30 closes =
      some ((Stock.windows 30 closes).map (fun w => w.sum / (w.length : ℚ))) := by
    unfold Stock.n_window_sma
    simp [h]
  refine ⟨?_, ⟨_, hpd, ?_⟩, ⟨_, hm, ?_⟩, ⟨_, hM, ?_⟩, ⟨_, hsma, ?_⟩⟩ <;>
    simp [Stock.makeRow, hpd, hm, hM, hsma, Option.iget_some,
      List.getLast?_eq_getLast_of_ne_nil h]

/-- **C8, witness**: row assembly for the series `[1, 2]`. -/
theorem C8_row_assembly_witness :
    (Stock.makeRow "AAPL" [1, 2]).lastPrice = [(1 : ℚ), 2].getLast (by simp) ∧
    (∃ p, Stock.price_diff [(1 : ℚ), 2] = some p ∧
      (Stock.makeRow "AAPL" [1, 2]).pctChange = p.2 * 100) ∧
    (∃ m, Stock.min [(1 : ℚ), 2] = some m ∧
      (Stock.makeRow "AAPL" [1, 2]).periodMin = m) ∧
    (∃ M, Stock.max [(1 : ℚ), 2] = some M ∧
      (Stock.makeRow "AAPL" [1, 2]).periodMax = M) ∧
    (∃ sma, Stock.n_window_sma 30 [(1 : ℚ), 2] = some sma ∧
      (Stock.makeRow "AAPL" [1, 2]).sma30Last = sma.getLast?.getD 0) :=
  C8_row_assembly "AAPL" [1, 2] (by simp)

/-- A retrieval error at symbol `s` stops the loop: the rows are those of
the (all-successful) prefix, the run is marked failed, and the symbols
after `s` contribute nothing, whatever they are. -/
lemma main_error_at (fetch : String → Except Unit (List ℚ))
    (data : String → List ℚ) (pre : List String) (s : String)
    (hfail : fetch s = .error ())
    (hpre : ∀ t ∈ pre, fetch t = .ok (data t)) :
    ∀ post : List String,
      Stock.main fetch (pre ++ s :: post) =
        ((pre.filter (fun t => !(data t).isEmpty)).map
            (fun t => Stock.makeRow t (data t)),
          true) := by
  induction pre with
  | nil =>
    intro post
    simp [Stock.main, hfail]
  | cons t pre' ih =>
    intro post
    have ht : fetch t = .ok (data t) := hpre t (List.mem_cons_self _ _)
    have ih' := ih (fun u hu => hpre u (List.mem_cons_of_mem _ hu)) post
    simp only [List.cons_append, Stock.main, ht, List.filter_cons]
    by_cases hempty : data t = []
    · simp [hempty, ih']
    · simp [hempty, ih']

/-- **C9** If quote retrieval fails for symbol `s`, the run aborts there:
the rows are exactly those of the preceding (successfully retrieved)
symbols, the error is surfaced, no row is emitted for `s`, and the result
does not depend on the symbols after `s` — they are never processed. -/
theorem C9_fetch_failure_aborts (fetch : String → Except Unit (List ℚ))
    (data : String → List ℚ) (pre : List String) (s : String) (post : List String)
    (hfail : fetch s = .error ())
    (hpre : ∀ t ∈ pre, fetch t = .ok (data t)) :
    Stock.main fetch (pre ++ s :: post) =
      ((pre.filter (fun t => !(data t).isEmpty)).map
          (fun t => Stock.makeRow t (data t)),
        true) ∧
    ∀ post2, Stock.main fetch (pre ++ s :: post2) =
      Stock.main fetch (pre ++ s :: post) :=
  ⟨main_error_at fetch data pre s hfail hpre post,
    fun post2 =>
      (main_error_at fetch data pre s hfail hpre post2).trans
        (main_error_at fetch data pre s hfail hpre post).symm⟩

/-- **C9, witness**: with symbols `["A", "B", "C"]` where retrieving `"B"`
fails and `"A"` yields `[1]`, only `"A"`'s row is emitted, the error flag
is set, and the tail after `"B"` is irrelevant. -/
theorem C9_fetch_failure_aborts_witness :
    Stock.main (fun t => if t = "B" then Except.error () else Except.ok [(1 : ℚ)])
        (["A"] ++ "B" :: ["C"]) =
      ((["A"].filter (fun _ => !([(1 : ℚ)]).isEmpty)).map
          (fun t => Stock.makeRow t [(1 : ℚ)]),
        true) ∧
    ∀ post2,
      Stock.main (fun t => if t = "B" then Except.error () else Except.ok [(1 : ℚ)])
          (["A"] ++ "B" :: post2) =
        Stock.main (fun t => if t = "B" then Except.error () else Except.ok [(1 : ℚ)])
          (["A"] ++ "B" :: ["C"]) :=
  C9_fetch_failure_aborts
    (fun t => if t = "B" then Except.error () else Except.ok [(1 : ℚ)])
    (fun _ => [(1 : ℚ)]) ["A"] "B" ["C"] (by simp)
    (by intro t ht; simp at ht; subst ht; simp)
